import Mathlib

/-!
Shallow embedding of the trade_journal session store
(src/trade_journal/journal_app.py, autosave.py, constants.py).

Python strings are modelled as lists of characters (`Str`), Python lists as
Lean lists, and the `self.data` dict as an insertion-ordered association
list with first-match lookup and replace-in-place update, which matches
CPython dict semantics for the bar keys used by the program.  Timestamps
(`datetime.now().strftime(...)`) are passed in as an explicit `now : Str`
argument.  GUI concerns (row selection, dialogs, bells) are abstracted:
the targeted bar is a parameter, the text typed into the template dialog
is an `Option Str` parameter, and the audible bell / success / cancelled
outcomes are an explicit `OpResult`.
-/

namespace TradeJournal

set_option maxRecDepth 10000

/-- Python strings, modelled as lists of characters. -/
abbrev Str := List Char

/-- ASCII whitespace: the characters recognised by the embedding of Python
`str.strip` and of the `\s` class in the template regex (the rare non-ASCII
whitespace code points accepted by CPython are out of scope). -/
def isWsChar (c : Char) : Bool :=
  c = ' ' || c = '\t' || c = '\n' || c = '\r' || c = '\x0b' || c = '\x0c'

/-- Python `str.lstrip()`. -/
def lstripStr (s : Str) : Str := s.dropWhile isWsChar

/-- Python `str.rstrip()`. -/
def rstripStr (s : Str) : Str := (s.reverse.dropWhile isWsChar).reverse

/-- Python `str.strip()`. -/
def stripStr (s : Str) : Str := rstripStr (lstripStr s)

/-- Python `str.upper()` (ASCII letters, as used for the bar-key labels). -/
def upperStr (s : Str) : Str := s.map Char.toUpper

/-- journal_app._is_templated_label: `"()" in label`. -/
def is_templated_label : Str → Bool
  | '(' :: ')' :: _ => true
  | _ :: rest => is_templated_label rest
  | [] => false

/-- Python `label.replace("()", "", 1)`: drop the first occurrence of `()`. -/
def removeFirstParens : Str → Str
  | '(' :: ')' :: rest => rest
  | c :: rest => c :: removeFirstParens rest
  | [] => []

/-- journal_app._button_base: `label.replace("()", "", 1).rstrip()`. -/
def button_base (label : Str) : Str := rstripStr (removeFirstParens label)

/-- Python `label.replace("()", "(" + user + ")", 1)`. -/
def replaceFirstParens (user : Str) : Str → Str
  | '(' :: ')' :: rest => '(' :: user ++ ')' :: rest
  | c :: rest => c :: replaceFirstParens user rest
  | [] => []

/-- journal_app._format_templated_entry. -/
def format_templated_entry (label user : Str) : Str :=
  if is_templated_label label then replaceFirstParens user label
  else label ++ ' ' :: '(' :: user ++ [')']

def isParenChar (c : Char) : Bool := c = '(' || c = ')'

/-- The tail of the anchored regex `\s*\([^()]*\)\s*$` that follows the
literal base in journal_app._find_latest_templated_match.  Matching is
deterministic: `\s*` must stop at the `(` (not whitespace), `[^()]*` must
stop at the first parenthesis, which `\)` then requires to be `)`, and the
remaining characters must all be whitespace (which also absorbs the
trailing-newline case of `$`). -/
def templateSuffixOk (s : Str) : Bool :=
  match s.dropWhile isWsChar with
  | '(' :: rest =>
    match rest.dropWhile (fun c => !(isParenChar c)) with
    | ')' :: rest2 => rest2.all isWsChar
    | _ => false
  | _ => false

/-- Bool test that `big` starts with `small` (Python re: the literal
`re.escape(base)` at the head of the pattern). -/
def startsWith : Str → Str → Bool
  | [], _ => true
  | _ :: _, [] => false
  | b :: bs, c :: cs => b = c && startsWith bs cs

/-- One text matches the compiled pattern
`^{re.escape(base)}\s*\([^()]*\)\s*$`. -/
def matchesTemplate (base txt : Str) : Bool :=
  startsWith base txt && templateSuffixOk (txt.drop base.length)

/-- journal_app._find_latest_templated_match: scan indices from
`len(bucket) - 1` down to `0` and return the first (i.e. highest) index
whose entry matches the pattern, with that entry. -/
def find_latest_templated_match (bucket : List Str) (base : Str) : Option (Nat × Str) :=
  match bucket with
  | [] => none
  | t :: rest =>
    match find_latest_templated_match rest base with
    | some (i, txt) => some (i + 1, txt)
    | none => if matchesTemplate base t then some (0, t) else none

/-- journal_app._any_templated_for_base_exists. -/
def any_templated_for_base_exists (bucket : List Str) (base : Str) : Bool :=
  (find_latest_templated_match bucket base).isSome

/-- A bar key: the two sentinel labels or a numbered bar
(constants.BAR_ORDER holds "RTH", "ETH" and the ints 1..81). -/
inductive BarKey where
  | rth
  | eth
  | num (n : Nat)
deriving DecidableEq, Repr

/-- One row of `self.data`: timestamp plus the four category lists. -/
structure BarRecord where
  ts : Str
  bull : List Str
  bear : List Str
  tr : List Str
  bias : List Str
deriving DecidableEq, Repr

/-- One of the four observation categories ("kind" in the source). -/
inductive Kind where
  | bull
  | bear
  | tr
  | bias
deriving DecidableEq, Repr

/-- Read the category list of a record (`self.data[bar][kind]`). -/
def BarRecord.get (r : BarRecord) : Kind → List Str
  | .bull => r.bull
  | .bear => r.bear
  | .tr => r.tr
  | .bias => r.bias

/-- Write the category list of a record (`self.data[bar][kind] = l`). -/
def BarRecord.set (r : BarRecord) : Kind → List Str → BarRecord
  | .bull, l => { r with bull := l }
  | .bear, l => { r with bear := l }
  | .tr, l => { r with tr := l }
  | .bias, l => { r with bias := l }

/-- constants.BAR_ORDER = ["RTH", "ETH"] + list(range(1, 82)). -/
def BAR_ORDER : List BarKey :=
  [.rth, .eth] ++ (List.range 81).map (fun i => .num (i + 1))

/-- One entry of `self.history`.  The source uses ad hoc tuples
distinguished by length and a leading tag; the tags make the four shapes
disjoint (a bar key is never the string "clear_bar"), so a tagged union is
a faithful embedding, and the dispatch order in undo_last is irrelevant. -/
inductive HistoryEvent where
  | add (bar : BarKey) (kind : Kind) (text : Str)
  | remove (bar : BarKey) (kind : Kind) (text : Str) (idx : Nat)
  | clear_bar (bar : BarKey) (prev : BarRecord)
  | clear_cell (bar : BarKey) (kind : Kind) (prevList : List Str)
deriving DecidableEq, Repr

/-- `self.data`: an insertion-ordered association list (CPython dict). -/
abbrev SessionData := List (BarKey × BarRecord)

/-- First-match lookup (`self.data[bar]` / `bar in self.data`). -/
def lookupBar : SessionData → BarKey → Option BarRecord
  | [], _ => none
  | (k, v) :: rest, b => if k = b then some v else lookupBar rest b

/-- Dict assignment `self.data[bar] = v`: replace in place if the key is
present, otherwise append at the end (CPython dict insertion order). -/
def setBar : SessionData → BarKey → BarRecord → SessionData
  | [], b, v => [(b, v)]
  | (k, w) :: rest, b, v =>
    if k = b then (b, v) :: rest else (k, w) :: setBar rest b v

/-- The fresh record built by _ensure_bar_exists and clear_current_bar. -/
def freshRecord (now : Str) : BarRecord := ⟨now, [], [], [], []⟩

/-- journal_app._ensure_bar_exists. -/
def ensure_bar_exists (now : Str) (d : SessionData) (bar : BarKey) : SessionData :=
  match lookupBar d bar with
  | some _ => d
  | none => setBar d bar (freshRecord now)

/-- The in-memory state owned by the session store: `self.data` and
`self.history`. -/
structure State where
  data : SessionData
  history : List HistoryEvent
deriving DecidableEq, Repr

/-- The state after `__init__` pre-creates every bar of BAR_ORDER
(before any autosave restore). -/
def initState (now : Str) : State :=
  ⟨BAR_ORDER.map (fun b => (b, freshRecord now)), []⟩

/-- Python `bucket.pop(idx)` (idx in range). -/
def eraseAt {α : Type} : List α → Nat → List α
  | [], _ => []
  | _ :: xs, 0 => xs
  | x :: xs, n + 1 => x :: eraseAt xs n

/-- Python `bucket.insert(idx, a)` (idx already clamped by the caller;
an index beyond the end appends, as in Python). -/
def insertAt {α : Type} : List α → Nat → α → List α
  | xs, 0, a => a :: xs
  | [], _ + 1, a => [a]
  | x :: xs, n + 1, a => x :: insertAt xs n a

/-- Python `bucket.index(text)` guarded by `text in bucket`. -/
def idxOf (t : Str) : List Str → Option Nat
  | [] => none
  | x :: xs => if x = t then some 0 else (idxOf t xs).map (· + 1)

/-- How one user action ends: success, the audible bell used for every
validation rejection (duplicate / not-found), or a cancelled dialog. -/
inductive OpResult where
  | ok
  | bell
  | cancelled
deriving DecidableEq, Repr

/-- journal_app.handle_point_button, for the targeted bar.  `shiftHeld`
selects erase mode; `userInput` is what the template dialog would return
(`none` = cancelled). -/
def handle_point_button (now : Str) (st : State) (bar : BarKey) (shiftHeld : Bool)
    (kind : Kind) (text : Str) (userInput : Option Str) : State × OpResult :=
  let d := ensure_bar_exists now st.data bar
  let rcd := (lookupBar d bar).getD (freshRecord now)
  let bucket := rcd.get kind
  if shiftHeld then
    if is_templated_label text then
      match find_latest_templated_match bucket (button_base text) with
      | none => ({ st with data := d }, .bell)
      | some (idx, exactTxt) =>
        ({ data := setBar d bar (rcd.set kind (eraseAt bucket idx)),
           history := st.history ++ [.remove bar kind exactTxt idx] }, .ok)
    else
      match idxOf text bucket with
      | some idx =>
        ({ data := setBar d bar (rcd.set kind (eraseAt bucket idx)),
           history := st.history ++ [.remove bar kind text idx] }, .ok)
      | none => ({ st with data := d }, .bell)
  else
    if is_templated_label text then
      if any_templated_for_base_exists bucket (button_base text) then
        ({ st with data := d }, .bell)
      else
        match userInput with
        | none => ({ st with data := d }, .cancelled)
        | some u0 =>
          let u := stripStr u0
          if u = [] then ({ st with data := d }, .cancelled)
          else
            let finalText := format_templated_entry text u
            if finalText ∈ bucket then ({ st with data := d }, .bell)
            else
              ({ data := setBar d bar (rcd.set kind (bucket ++ [finalText])),
                 history := st.history ++ [.add bar kind finalText] }, .ok)
    else
      if text ∈ bucket then ({ st with data := d }, .bell)
      else
        ({ data := setBar d bar (rcd.set kind (bucket ++ [text])),
           history := st.history ++ [.add bar kind text] }, .ok)

/-- journal_app.clear_current_bar (guarded by `if bar in self.data`). -/
def clear_current_bar (now : Str) (st : State) (bar : BarKey) : State :=
  match lookupBar st.data bar with
  | none => st
  | some prev =>
    { data := setBar st.data bar (freshRecord now),
      history := st.history ++ [.clear_bar bar prev] }

/-- journal_app.undo_last.  The Bool reports whether there was anything to
undo (the source shows an info dialog and returns when the stack is
empty). -/
def undo_last (st : State) : State × Bool :=
  match st.history.getLast? with
  | none => (st, false)
  | some ev =>
    let h := st.history.dropLast
    match ev with
    | .clear_bar bar prev =>
      ({ data := setBar st.data bar prev, history := h }, true)
    | .add bar kind text =>
      match lookupBar st.data bar with
      | none => ({ st with history := h }, true)
      | some rcd =>
        let bucket := rcd.get kind
        if bucket.getLast? = some text then
          ({ data := setBar st.data bar (rcd.set kind bucket.dropLast),
             history := h }, true)
        else ({ st with history := h }, true)
    | .remove bar kind text idx =>
      match lookupBar st.data bar with
      | none => ({ st with history := h }, true)
      | some rcd =>
        let bucket := rcd.get kind
        ({ data := setBar st.data bar
             (rcd.set kind (insertAt bucket (min idx bucket.length) text)),
           history := h }, true)
    | .clear_cell bar kind prevList =>
      match lookupBar st.data bar with
      | none => ({ st with history := h }, true)
      | some rcd =>
        ({ data := setBar st.data bar (rcd.set kind prevList), history := h }, true)

/-- The body of journal_app._on_delete_key for one selected (bar, kind)
cell: skip (no snapshot, no history) when the list is already empty,
otherwise snapshot it, push a clear_cell event and empty the list.  The
Bool is the per-cell contribution to `changed_any`. -/
def clear_cell (now : Str) (st : State) (bar : BarKey) (kind : Kind) : State × Bool :=
  let d := ensure_bar_exists now st.data bar
  let rcd := (lookupBar d bar).getD (freshRecord now)
  let bucket := rcd.get kind
  if bucket = [] then ({ st with data := d }, false)
  else
    ({ data := setBar d bar (rcd.set kind []),
       history := st.history ++ [.clear_cell bar kind bucket] }, true)

/-- Python `"\n".join(l)`. -/
def joinNL : List Str → Str
  | [] => []
  | [x] => x
  | x :: xs => x ++ '\n' :: joinNL xs

/-- Python `s.split("\n")`. -/
def splitNL : Str → List Str
  | [] => [[]]
  | c :: rest =>
    if c = '\n' then [] :: splitNL rest
    else
      match splitNL rest with
      | [] => [[c]]
      | s :: ss => (c :: s) :: ss

/-- Value of one ASCII digit. -/
def digitVal (c : Char) : Option Nat :=
  if c.isDigit then some (c.toNat - '0'.toNat) else none

/-- Remaining digits of a Python int literal: digits with single
underscores allowed between digits. -/
def digitsURest (acc : Nat) : Str → Option Nat
  | [] => some acc
  | '_' :: c :: rest =>
    match digitVal c with
    | some dv => digitsURest (10 * acc + dv) rest
    | none => none
  | c :: rest =>
    match digitVal c with
    | some dv => digitsURest (10 * acc + dv) rest
    | none => none

/-- Nonempty digit string (with Python's in-between underscores). -/
def digitsUVal : Str → Option Nat
  | [] => none
  | c :: rest => (digitVal c).bind (fun dv => digitsURest dv rest)

/-- Python `int(s)` on an already-stripped string: optional sign then
digits (ASCII digits; exotic unicode digits are out of scope).  `none`
models the ValueError branch. -/
def pyInt : Str → Option Int
  | [] => none
  | '+' :: rest => (digitsUVal rest).map (fun n => (n : Int))
  | '-' :: rest => (digitsUVal rest).map (fun n => -(n : Int))
  | s => (digitsUVal s).map (fun n => (n : Int))

/-- Python `max(1, min(81, n))` as a Nat. -/
def clampBar (n : Int) : Nat := (max 1 (min 81 n)).toNat

/-- journal_app._parse_bar_key on a string cell. -/
def parse_bar_key (s : Str) : BarKey :=
  let u := upperStr (stripStr s)
  if u = "RTH".toList then .rth
  else if u = "ETH".toList then .eth
  else
    match pyInt u with
    | some n => .num (clampBar n)
    | none => .rth

/-- How `csv.writer` renders a bar key (str of the int, or the label). -/
def barKeyStr : BarKey → Str
  | .rth => "RTH".toList
  | .eth => "ETH".toList
  | .num n => (Nat.repr n).toList

/-- constants.COLUMNS, the CSV header row. -/
def COLUMNS : List Str :=
  ["Bar".toList, "Bull".toList, "Bear".toList, "TR".toList, "Bias".toList]

/-- journal_app._row_of: the five cells written for one bar. -/
def row_of (bar : BarKey) (r : BarRecord) : List Str :=
  [barKeyStr bar, joinNL r.bull, joinNL r.bear, joinNL r.tr, joinNL r.bias]

/-- Collect one optional row per bar; any failure (a missing bar makes
_row_of raise KeyError) aborts the whole export. -/
def mapOption {α β : Type} (f : α → Option β) : List α → Option (List β)
  | [] => some []
  | a :: as =>
    match f a, mapOption f as with
    | some b, some bs => some (b :: bs)
    | _, _ => none

/-- journal_app.save_csv, abstracted over the file codec: the produced
rows of cells (csv.writer/reader round-trip cells exactly, quoting
embedded newlines).  `none` models "no data to save" and the KeyError a
missing bar would raise in _row_of. -/
def save_csv (st : State) : Option (List (List Str)) :=
  if st.data = [] then none
  else
    (mapOption (fun b => (lookupBar st.data b).map (row_of b)) BAR_ORDER).map
      (fun rows => COLUMNS :: rows)

/-- The `split_lines` closure in journal_app.load_csv applied to one cell:
nothing when the cell is blank, else split on newlines and drop blank
lines. -/
def split_lines_cell (cell : Str) : List Str :=
  if stripStr cell = [] then []
  else (splitNL cell).filter (fun x => !(stripStr x).isEmpty)

/-- `split_lines(i)` of journal_app.load_csv: out-of-range cells give []. -/
def split_lines (row : List Str) (i : Nat) : List Str :=
  match row.get? i with
  | some cell => split_lines_cell cell
  | none => []

/-- The bar key a data row names: `_parse_bar_key(row[0].strip())`. -/
def rowBarKey (row : List Str) : BarKey :=
  parse_bar_key (stripStr (row.headD []))

/-- The body of the row loop in journal_app.load_csv for one data row. -/
def import_row (now : Str) (st : State) (row : List Str) : State :=
  if row = [] then st
  else
    let bar := rowBarKey row
    let d := ensure_bar_exists now st.data bar
    let rcd := (lookupBar d bar).getD (freshRecord now)
    { st with
      data := setBar d bar
        { rcd with
          bull := split_lines row 1, bear := split_lines row 2,
          tr := split_lines row 3, bias := split_lines row 4 } }

/-- journal_app.load_csv on the parsed file rows: drop the header row,
apply every data row, then clear the undo history. -/
def load_csv (now : Str) (st : State) (rows : List (List Str)) : State :=
  let st2 := rows.tail.foldl (import_row now) st
  { st2 with history := [] }

/-- The bars named by the data rows of a parsed file (empty rows are
skipped by the loop). -/
def namedBars (rows : List (List Str)) : List BarKey :=
  (rows.filter (fun r => !r.isEmpty)).map rowBarKey

/-- One record of the autosave JSON file as far as the merge in
autosave._load_session_json inspects it: each field is present iff the
JSON object had it with the right type. -/
structure LoadedRec where
  tsF : Option Str
  bullF : Option (List Str)
  bearF : Option (List Str)
  trF : Option (List Str)
  biasF : Option (List Str)
deriving DecidableEq, Repr

/-- autosave._load_session_json merge loop, abstracted over JSON parsing:
`loaded key` is the (well-typed view of the) record the file holds for
that key, if any.  Missing bars are created with an empty-string
timestamp; recognised fields are copied verbatim (`list(rec[k])`). -/
def load_session_json (loaded : BarKey → Option LoadedRec) (d : SessionData) : SessionData :=
  BAR_ORDER.foldl
    (fun acc key =>
      let acc1 :=
        match lookupBar acc key with
        | some _ => acc
        | none => setBar acc key ⟨[], [], [], [], []⟩
      match loaded key with
      | none => acc1
      | some rec0 =>
        let r0 := (lookupBar acc1 key).getD ⟨[], [], [], [], []⟩
        let r1 :=
          { r0 with
            bull := rec0.bullF.getD r0.bull, bear := rec0.bearF.getD r0.bear,
            tr := rec0.trF.getD r0.tr, bias := rec0.biasF.getD r0.bias }
        let r2 :=
          match rec0.tsF with
          | some t => { r1 with ts := t }
          | none => r1
        setBar acc1 key r2)
    d

/-! ### Association-list (dict) lemmas -/

theorem lookupBar_setBar_same (d : SessionData) (b : BarKey) (v : BarRecord) :
    lookupBar (setBar d b v) b = some v := by
  induction d with
  | nil => simp [setBar, lookupBar]
  | cons p rest ih =>
    obtain ⟨k, w⟩ := p
    by_cases h : k = b <;> simp [setBar, lookupBar, h, ih]

theorem lookupBar_setBar_other {b b' : BarKey} (d : SessionData) (v : BarRecord)
    (h : b' ≠ b) : lookupBar (setBar d b v) b' = lookupBar d b' := by
  have h' : b ≠ b' := Ne.symm h
  induction d with
  | nil => simp [setBar, lookupBar, h']
  | cons p rest ih =>
    obtain ⟨k, w⟩ := p
    by_cases hk : k = b
    · subst hk
      simp [setBar, lookupBar, h']
    · by_cases hk' : k = b' <;> simp [setBar, lookupBar, hk, hk', ih, h, h']

theorem setBar_lookup_self {d : SessionData} {b : BarKey} {v : BarRecord}
    (h : lookupBar d b = some v) : setBar d b v = d := by
  induction d with
  | nil => simp [lookupBar] at h
  | cons p rest ih =>
    obtain ⟨k, w⟩ := p
    by_cases hk : k = b
    · subst hk
      simp [lookupBar] at h
      simp [setBar, h]
    · simp [lookupBar, hk] at h
      simp [setBar, hk, ih h]

theorem setBar_setBar (d : SessionData) (b : BarKey) (v w : BarRecord) :
    setBar (setBar d b v) b w = setBar d b w := by
  induction d with
  | nil => simp [setBar]
  | cons p rest ih =>
    obtain ⟨k, u⟩ := p
    by_cases hk : k = b <;> simp [setBar, hk, ih]

theorem ensure_present {d : SessionData} {b : BarKey} {r : BarRecord} (now : Str)
    (h : lookupBar d b = some r) : ensure_bar_exists now d b = d := by
  simp [ensure_bar_exists, h]

theorem lookupBar_mem {d : SessionData} {b : BarKey} {r : BarRecord}
    (h : lookupBar d b = some r) : (b, r) ∈ d := by
  induction d with
  | nil => simp [lookupBar] at h
  | cons p rest ih =>
    obtain ⟨k, w⟩ := p
    by_cases hk : k = b
    · subst hk
      simp [lookupBar] at h
      simp [h]
    · simp [lookupBar, hk] at h
      simp [ih h]

theorem lookupBar_ne_nil {d : SessionData} {b : BarKey} {r : BarRecord}
    (h : lookupBar d b = some r) : d ≠ [] := by
  intro hd
  subst hd
  simp [lookupBar] at h

/-! ### BarRecord field lemmas -/

theorem BarRecord.get_set_same (r : BarRecord) (k : Kind) (l : List Str) :
    (r.set k l).get k = l := by
  cases k <;> rfl

theorem BarRecord.get_set_other (r : BarRecord) {k k' : Kind} (l : List Str)
    (h : k' ≠ k) : (r.set k l).get k' = r.get k' := by
  cases k <;> cases k' <;> first | rfl | exact absurd rfl h

theorem BarRecord.set_set (r : BarRecord) (k : Kind) (l m : List Str) :
    (r.set k l).set k m = r.set k m := by
  cases k <;> rfl

theorem BarRecord.set_get (r : BarRecord) (k : Kind) :
    r.set k (r.get k) = r := by
  cases k <;> rfl

theorem BarRecord.ts_set (r : BarRecord) (k : Kind) (l : List Str) :
    (r.set k l).ts = r.ts := by
  cases k <;> rfl

/-! ### Small list lemmas -/

theorem getLast?_snoc {α : Type} (l : List α) (a : α) :
    (l ++ [a]).getLast? = some a :=
  List.getLast?_concat l

theorem dropLast_snoc {α : Type} (l : List α) (a : α) :
    (l ++ [a]).dropLast = l := by
  simp

theorem eraseAt_sublist {α : Type} (l : List α) (i : Nat) :
    List.Sublist (eraseAt l i) l := by
  induction l generalizing i with
  | nil => simp [eraseAt]
  | cons x xs ih =>
    cases i with
    | zero => exact List.sublist_cons_self x xs
    | succ n => exact List.Sublist.cons₂ x (ih n)

theorem get?_some_lt {α : Type} {l : List α} {i : Nat} {a : α}
    (h : l.get? i = some a) : i < l.length := by
  induction l generalizing i with
  | nil => simp [List.get?] at h
  | cons x xs ih =>
    cases i with
    | zero => simp
    | succ n =>
      simp only [List.get?] at h
      exact Nat.succ_lt_succ (ih h)

theorem eraseAt_length {α : Type} {l : List α} {i : Nat} (h : i < l.length) :
    (eraseAt l i).length = l.length - 1 := by
  induction l generalizing i with
  | nil => simp at h
  | cons x xs ih =>
    cases i with
    | zero => simp [eraseAt]
    | succ n =>
      have hn : n < xs.length := Nat.lt_of_succ_lt_succ h
      cases xs with
      | nil => simp at hn
      | cons y ys => simp [eraseAt, ih hn]

theorem insertAt_eraseAt {α : Type} {l : List α} {i : Nat} {a : α}
    (h : l.get? i = some a) : insertAt (eraseAt l i) i a = l := by
  induction l generalizing i with
  | nil => simp [List.get?] at h
  | cons x xs ih =>
    cases i with
    | zero =>
      simp only [List.get?] at h
      injection h with h
      subst h
      simp [eraseAt, insertAt]
    | succ n =>
      simp only [List.get?] at h
      show x :: insertAt (eraseAt xs n) n a = x :: xs
      rw [ih h]

theorem insertAt_perm {α : Type} (l : List α) (i : Nat) (a : α) :
    (insertAt l i a).Perm (a :: l) := by
  induction l generalizing i with
  | nil =>
    cases i <;> exact List.Perm.refl [a]
  | cons x xs ih =>
    cases i with
    | zero => exact List.Perm.refl (a :: x :: xs)
    | succ n =>
      exact List.Perm.trans (List.Perm.cons x (ih n)) (List.Perm.swap a x xs)

theorem idxOf_get? {t : Str} {l : List Str} {i : Nat}
    (h : idxOf t l = some i) : l.get? i = some t := by
  induction l generalizing i with
  | nil => simp [idxOf] at h
  | cons x xs ih =>
    by_cases hx : x = t
    · subst hx
      simp [idxOf] at h
      subst h
      rfl
    · simp [idxOf, hx] at h
      obtain ⟨j, hj, rfl⟩ := h
      simpa [List.get?] using ih hj

theorem idxOf_none_iff {t : Str} {l : List Str} :
    idxOf t l = none ↔ t ∉ l := by
  induction l with
  | nil => simp [idxOf]
  | cons x xs ih =>
    by_cases hx : x = t
    · subst hx
      simp [idxOf]
    · have hx' : t ≠ x := Ne.symm hx
      simp [idxOf, hx, ih, hx']

theorem mem_idxOf {t : Str} {l : List Str} (h : t ∈ l) :
    ∃ i, idxOf t l = some i := by
  cases hx : idxOf t l with
  | none => exact absurd h (idxOf_none_iff.mp hx)
  | some i => exact ⟨i, rfl⟩

theorem nodup_snoc {α : Type} {l : List α} {a : α}
    (hn : l.Nodup) (ha : a ∉ l) : (l ++ [a]).Nodup := by
  rw [List.nodup_append]
  refine ⟨hn, List.nodup_singleton a, ?_⟩
  intro x hx hx'
  rw [List.mem_singleton] at hx'
  subst hx'
  exact ha hx

theorem nodup_insertAt {α : Type} {l : List α} {a : α} (i : Nat)
    (hn : l.Nodup) (ha : a ∉ l) : (insertAt l i a).Nodup := by
  refine ((insertAt_perm l i a).symm.nodup ?_)
  exact List.nodup_cons.mpr ⟨ha, hn⟩

/-! ### find_latest_templated_match specification -/

theorem flm_none_iff {bucket : List Str} {base : Str} :
    find_latest_templated_match bucket base = none ↔
      ∀ t ∈ bucket, matchesTemplate base t = false := by
  induction bucket with
  | nil => simp [find_latest_templated_match]
  | cons x xs ih =>
    constructor
    · intro h
      simp only [find_latest_templated_match] at h
      cases hr : find_latest_templated_match xs base with
      | some p => rw [hr] at h; cases p; simp at h
      | none =>
        rw [hr] at h
        by_cases hm : matchesTemplate base x
        · simp [hm] at h
        · intro t ht
          rcases List.mem_cons.mp ht with rfl | ht'
          · simpa using hm
          · exact ih.mp hr t ht'
    · intro h
      have hx : matchesTemplate base x = false := h x (by simp)
      have hxs : find_latest_templated_match xs base = none :=
        ih.mpr (fun t ht => h t (List.mem_cons_of_mem x ht))
      simp [find_latest_templated_match, hxs, hx]

theorem flm_some {bucket : List Str} {base : Str} {i : Nat} {t : Str}
    (h : find_latest_templated_match bucket base = some (i, t)) :
    bucket.get? i = some t ∧ matchesTemplate base t = true ∧
      ∀ j u, i < j → bucket.get? j = some u → matchesTemplate base u = false := by
  induction bucket generalizing i with
  | nil => simp [find_latest_templated_match] at h
  | cons x xs ih =>
    simp only [find_latest_templated_match] at h
    cases hr : find_latest_templated_match xs base with
    | some p =>
      obtain ⟨i', t'⟩ := p
      rw [hr] at h
      simp only [Option.some.injEq, Prod.mk.injEq] at h
      obtain ⟨hi, ht⟩ := h
      subst ht
      obtain ⟨h1, h2, h3⟩ := ih hr
      refine ⟨?_, h2, ?_⟩
      · rw [← hi]; simpa [List.get?] using h1
      · intro j u hj hju
        cases j with
        | zero => omega
        | succ j' =>
          simp only [List.get?] at hju
          exact h3 j' u (by omega) hju
    | none =>
      rw [hr] at h
      by_cases hm : matchesTemplate base x
      · simp only [hm, if_pos, Option.some.injEq, Prod.mk.injEq] at h
        obtain ⟨hi, ht⟩ := h
        subst ht
        subst hi
        refine ⟨rfl, hm, ?_⟩
        intro j u hj hju
        cases j with
        | zero => omega
        | succ j' =>
          simp only [List.get?] at hju
          exact flm_none_iff.mp hr u (by exact List.get?_mem hju)
      · simp [hm] at h

theorem flm_isSome_of_mem {bucket : List Str} {base : Str} {e : Str}
    (he : e ∈ bucket) (hm : matchesTemplate base e = true) :
    ∃ i t, find_latest_templated_match bucket base = some (i, t) := by
  cases hr : find_latest_templated_match bucket base with
  | none =>
    have := flm_none_iff.mp hr e he
    rw [hm] at this
    cases this
  | some p => exact ⟨p.1, p.2, by cases p; rfl⟩

/-! ### Whitespace, strip, split and join lemmas -/

theorem dropWhile_nil_iff {p : Char → Bool} {s : Str} :
    s.dropWhile p = [] ↔ s.all p := by
  induction s with
  | nil => simp
  | cons c cs ih =>
    by_cases hc : p c <;> simp [List.dropWhile_cons, hc, ih]

theorem all_dropWhile {p : Char → Bool} {s : Str} :
    (s.dropWhile p).all p = s.all p := by
  induction s with
  | nil => rfl
  | cons c cs ih =>
    by_cases hc : p c <;> simp [List.dropWhile_cons, hc, ih]

theorem rstrip_nil_iff {s : Str} : rstripStr s = [] ↔ s.all isWsChar := by
  rw [rstripStr, List.reverse_eq_nil_iff, dropWhile_nil_iff, List.all_reverse]

theorem strip_nil_iff {s : Str} : stripStr s = [] ↔ s.all isWsChar := by
  rw [stripStr, rstrip_nil_iff, lstripStr]
  constructor
  · intro h
    rw [← all_dropWhile (p := isWsChar) (s := s)]
    exact h
  · intro h
    rw [all_dropWhile]
    exact h

theorem strip_ne_nil_of_mem {s : Str} {c : Char} (hc : c ∈ s)
    (hw : ¬ isWsChar c = true) : stripStr s ≠ [] := by
  rw [Ne, strip_nil_iff]
  intro h
  exact hw (List.all_eq_true.mp h c hc)

theorem splitNL_ne_nil (s : Str) : splitNL s ≠ [] := by
  cases s with
  | nil => simp [splitNL]
  | cons c cs =>
    rw [splitNL]
    by_cases hc : c = '\n'
    · simp [hc]
    · rw [if_neg hc]
      split <;> simp

theorem splitNL_no_nl {s : Str} (h : '\n' ∉ s) : splitNL s = [s] := by
  induction s with
  | nil => rfl
  | cons c cs ih =>
    have hc : ¬ c = '\n' := by
      intro hh
      exact h (by simp [hh])
    have hcs : '\n' ∉ cs := fun hm => h (List.mem_cons_of_mem c hm)
    rw [splitNL, if_neg hc, ih hcs]

theorem splitNL_snoc_nl {e : Str} (he : '\n' ∉ e) (r : Str) :
    splitNL (e ++ '\n' :: r) = e :: splitNL r := by
  induction e with
  | nil => simp [splitNL]
  | cons c cs ih =>
    have hc : ¬ c = '\n' := by
      intro hh
      exact he (by simp [hh])
    have hcs : '\n' ∉ cs := fun hm => he (List.mem_cons_of_mem c hm)
    rw [List.cons_append, splitNL, if_neg hc, ih hcs]

theorem splitNL_joinNL {l : List Str} (hl : l ≠ [])
    (h : ∀ e ∈ l, '\n' ∉ e) : splitNL (joinNL l) = l := by
  induction l with
  | nil => cases hl rfl
  | cons x xs ih =>
    cases xs with
    | nil => exact splitNL_no_nl (h x (by simp))
    | cons y ys =>
      show splitNL (x ++ '\n' :: joinNL (y :: ys)) = x :: y :: ys
      rw [splitNL_snoc_nl (h x (by simp))]
      rw [ih (by simp) (fun e he => h e (List.mem_cons_of_mem x he))]

theorem filter_nonblank_eq_self {l : List Str} (h : ∀ e ∈ l, stripStr e ≠ []) :
    l.filter (fun x => !(stripStr x).isEmpty) = l := by
  rw [List.filter_eq_self]
  intro a ha
  simp [List.isEmpty_iff, h a ha]

/-- The well-formedness of a stored category list that makes the CSV cell
round-trip: no embedded newline, and not whitespace-only. -/
def goodList (l : List Str) : Prop := ∀ e ∈ l, '\n' ∉ e ∧ stripStr e ≠ []

theorem split_lines_cell_joinNL {l : List Str} (h : goodList l) :
    split_lines_cell (joinNL l) = l := by
  cases l with
  | nil => rfl
  | cons x xs =>
    have hx := h x (List.mem_cons_self x xs)
    have hnb : ¬ (x.all isWsChar = true) := fun hall => hx.2 (strip_nil_iff.mpr hall)
    have hex : ∃ c ∈ x, ¬ isWsChar c = true := by
      by_contra hno
      push_neg at hno
      exact hnb (List.all_eq_true.mpr hno)
    obtain ⟨c, hc, hcw⟩ := hex
    have hmem : c ∈ joinNL (x :: xs) := by
      cases xs with
      | nil => exact hc
      | cons y ys => exact List.mem_append_left _ hc
    have hne : stripStr (joinNL (x :: xs)) ≠ [] := strip_ne_nil_of_mem hmem hcw
    rw [split_lines_cell, if_neg hne]
    rw [splitNL_joinNL (by simp) (fun e he => (h e he).1)]
    exact filter_nonblank_eq_self (fun e he => (h e he).2)

/-! ### BAR_ORDER and bar-key parsing facts -/

theorem BAR_ORDER_nodup : BAR_ORDER.Nodup := by decide

theorem parse_roundtrip : ∀ b ∈ BAR_ORDER, parse_bar_key (stripStr (barKeyStr b)) = b := by
  decide

theorem strip_barKeyStr : ∀ b ∈ BAR_ORDER, stripStr (barKeyStr b) = barKeyStr b := by
  decide

theorem clampBar_bounds (n : Int) : 1 ≤ clampBar n ∧ clampBar n ≤ 81 := by
  unfold clampBar
  omega

theorem mem_BAR_ORDER_num {k : Nat} (h1 : 1 ≤ k) (h2 : k ≤ 81) :
    BarKey.num k ∈ BAR_ORDER := by
  rw [BAR_ORDER]
  refine List.mem_append_right _ ?_
  rw [List.mem_map]
  exact ⟨k - 1, List.mem_range.mpr (by omega), by rw [Nat.sub_add_cancel h1]⟩

/-! ### Success-shape inversion for the mutating operations -/

theorem add_ok_cases {now : Str} {st : State} {bar : BarKey} {kind : Kind}
    {text : Str} {uin : Option Str} {st' : State} {rec : BarRecord}
    (hbar : lookupBar st.data bar = some rec)
    (hok : handle_point_button now st bar false kind text uin = (st', .ok)) :
    ∃ t, t ∉ rec.get kind ∧
      st' = ⟨setBar st.data bar (rec.set kind (rec.get kind ++ [t])),
             st.history ++ [.add bar kind t]⟩ := by
  have hd : ensure_bar_exists now st.data bar = st.data := ensure_present now hbar
  simp only [handle_point_button, hd, hbar, Option.getD_some, Bool.false_eq_true,
    if_false] at hok
  by_cases ht : is_templated_label text
  · simp only [ht, if_true] at hok
    by_cases hex : any_templated_for_base_exists (rec.get kind) (button_base text)
    · simp [hex] at hok
    · simp only [hex, Bool.false_eq_true, if_false] at hok
      cases uin with
      | none => simp at hok
      | some u0 =>
        simp only at hok
        by_cases hu : stripStr u0 = []
        · simp [hu] at hok
        · simp only [hu, if_false] at hok
          by_cases hmem : format_templated_entry text (stripStr u0) ∈ rec.get kind
          · simp [hmem] at hok
          · simp only [hmem, if_false, Prod.mk.injEq] at hok
            exact ⟨_, hmem, hok.1.symm⟩
  · simp only [ht, Bool.false_eq_true, if_false] at hok
    by_cases hmem : text ∈ rec.get kind
    · simp [hmem] at hok
    · simp only [hmem, if_false, Prod.mk.injEq] at hok
      exact ⟨_, hmem, hok.1.symm⟩

theorem erase_ok_cases {now : Str} {st : State} {bar : BarKey} {kind : Kind}
    {text : Str} {uin : Option Str} {st' : State} {rec : BarRecord}
    (hbar : lookupBar st.data bar = some rec)
    (hok : handle_point_button now st bar true kind text uin = (st', .ok)) :
    ∃ i t, (rec.get kind).get? i = some t ∧
      st' = ⟨setBar st.data bar (rec.set kind (eraseAt (rec.get kind) i)),
             st.history ++ [.remove bar kind t i]⟩ := by
  have hd : ensure_bar_exists now st.data bar = st.data := ensure_present now hbar
  simp only [handle_point_button, hd, hbar, Option.getD_some, if_true] at hok
  by_cases ht : is_templated_label text
  · simp only [ht, if_true] at hok
    cases hf : find_latest_templated_match (rec.get kind) (button_base text) with
    | none => simp [hf] at hok
    | some p =>
      obtain ⟨i, t⟩ := p
      rw [hf] at hok
      simp only [Prod.mk.injEq] at hok
      exact ⟨i, t, (flm_some hf).1, hok.1.symm⟩
  · simp only [ht, Bool.false_eq_true, if_false] at hok
    cases hf : idxOf text (rec.get kind) with
    | none => simp [hf] at hok
    | some i =>
      rw [hf] at hok
      simp only [Prod.mk.injEq] at hok
      exact ⟨i, text, idxOf_get? hf, hok.1.symm⟩

theorem clear_cell_true_cases {now : Str} {st : State} {bar : BarKey} {kind : Kind}
    {st' : State} {rec : BarRecord}
    (hbar : lookupBar st.data bar = some rec)
    (hcc : clear_cell now st bar kind = (st', true)) :
    rec.get kind ≠ [] ∧
      st' = ⟨setBar st.data bar (rec.set kind []),
             st.history ++ [.clear_cell bar kind (rec.get kind)]⟩ := by
  have hd : ensure_bar_exists now st.data bar = st.data := ensure_present now hbar
  simp only [clear_cell, hd, hbar, Option.getD_some] at hcc
  by_cases hb : rec.get kind = []
  · simp [hb] at hcc
  · simp only [hb, if_false, Prod.mk.injEq] at hcc
    exact ⟨hb, hcc.1.symm⟩

/-! ### Undo restores the pre-mutation state -/

theorem undo_add_restore {d : SessionData} {bar : BarKey} {rec : BarRecord}
    {kind : Kind} {t : Str} {h : List HistoryEvent}
    (hbar : lookupBar d bar = some rec) :
    undo_last ⟨setBar d bar (rec.set kind (rec.get kind ++ [t])),
               h ++ [.add bar kind t]⟩ = (⟨d, h⟩, true) := by
  simp only [undo_last, getLast?_snoc, dropLast_snoc, lookupBar_setBar_same,
    BarRecord.get_set_same, BarRecord.set_set, BarRecord.set_get, setBar_setBar,
    if_true, setBar_lookup_self hbar]

theorem undo_remove_restore {d : SessionData} {bar : BarKey} {rec : BarRecord}
    {kind : Kind} {t : Str} {i : Nat} {h : List HistoryEvent}
    (hbar : lookupBar d bar = some rec)
    (hget : (rec.get kind).get? i = some t) :
    undo_last ⟨setBar d bar (rec.set kind (eraseAt (rec.get kind) i)),
               h ++ [.remove bar kind t i]⟩ = (⟨d, h⟩, true) := by
  have hlt : i < (rec.get kind).length := get?_some_lt hget
  have hlen : (eraseAt (rec.get kind) i).length = (rec.get kind).length - 1 :=
    eraseAt_length hlt
  have hmin : min i (eraseAt (rec.get kind) i).length = i := by
    rw [hlen]
    omega
  simp only [undo_last, getLast?_snoc, dropLast_snoc, lookupBar_setBar_same,
    BarRecord.get_set_same, BarRecord.set_set, setBar_setBar, hmin,
    insertAt_eraseAt hget, BarRecord.set_get, setBar_lookup_self hbar]

theorem undo_clear_bar_restore {d : SessionData} {bar : BarKey} {prev v : BarRecord}
    {h : List HistoryEvent} (hbar : lookupBar d bar = some prev) :
    undo_last ⟨setBar d bar v, h ++ [.clear_bar bar prev]⟩ = (⟨d, h⟩, true) := by
  simp only [undo_last, getLast?_snoc, dropLast_snoc, setBar_setBar,
    setBar_lookup_self hbar]

theorem undo_clear_cell_restore {d : SessionData} {bar : BarKey} {rec : BarRecord}
    {kind : Kind} {h : List HistoryEvent}
    (hbar : lookupBar d bar = some rec) :
    undo_last ⟨setBar d bar (rec.set kind []), h ++ [.clear_cell bar kind (rec.get kind)]⟩
      = (⟨d, h⟩, true) := by
  simp only [undo_last, getLast?_snoc, dropLast_snoc, lookupBar_setBar_same,
    BarRecord.set_set, BarRecord.set_get, setBar_setBar, setBar_lookup_self hbar]

/-! ### Concrete states used by the witnesses -/

/-- A fresh session, as pre-created at launch. -/
def stInit : State := initState "t0".toList

/-- After adding "above EMA" to RTH's bull list. -/
def st1 : State :=
  (handle_point_button "t1".toList stInit .rth false .bull "above EMA".toList none).1

/-- The record RTH carries in st1. -/
def rec1 : BarRecord := ⟨"t0".toList, ["above EMA".toList], [], [], []⟩

/-- After adding the templated label "DB()" with user suffix "x". -/
def st2 : State :=
  (handle_point_button "t1".toList stInit .rth false .bull "DB()".toList
    (some "x".toList)).1

/-- The record RTH carries in st2. -/
def rec2 : BarRecord := ⟨"t0".toList, ["DB(x)".toList], [], [], []⟩

/-! ### Claims -/

/-- C1: for every session state in which the targeted bar is present (the
program keeps every bar of BAR_ORDER present at all times) and every single
successful mutation — adding an entry, removing an entry (plain or
templated erase), clearing the current bar, clearing one category list —
performing the mutation and then immediately calling undo_last returns a
state structurally equal to the pre-mutation state: the whole data mapping
(timestamps and all four category lists of every bar) and the history. -/
theorem claim_C1_undo_restores_previous_state :
    (∀ now st st' bar kind text uin rec, lookupBar st.data bar = some rec →
        handle_point_button now st bar false kind text uin = (st', .ok) →
        undo_last st' = (st, true))
  ∧ (∀ now st st' bar kind text uin rec, lookupBar st.data bar = some rec →
        handle_point_button now st bar true kind text uin = (st', .ok) →
        undo_last st' = (st, true))
  ∧ (∀ now st bar rec, lookupBar st.data bar = some rec →
        undo_last (clear_current_bar now st bar) = (st, true))
  ∧ (∀ now st st' bar kind rec, lookupBar st.data bar = some rec →
        clear_cell now st bar kind = (st', true) →
        undo_last st' = (st, true)) := by
  refine ⟨?_, ?_, ?_, ?_⟩
  · intro now st st' bar kind text uin rec hbar hok
    obtain ⟨t, htmem, rfl⟩ := add_ok_cases hbar hok
    exact undo_add_restore hbar
  · intro now st st' bar kind text uin rec hbar hok
    obtain ⟨i, t, hget, rfl⟩ := erase_ok_cases hbar hok
    exact undo_remove_restore hbar hget
  · intro now st bar rec hbar
    simp only [clear_current_bar, hbar]
    exact undo_clear_bar_restore hbar
  · intro now st st' bar kind rec hbar hcc
    obtain ⟨hne, rfl⟩ := clear_cell_true_cases hbar hcc
    exact undo_clear_cell_restore hbar

/-- Witness for C1: concrete add / erase / clear-bar / clear-cell on small
concrete sessions, with every hypothesis discharged by evaluation. -/
theorem claim_C1_witness :
    undo_last (handle_point_button "t1".toList stInit .rth false .bull
        "above EMA".toList none).1 = (stInit, true)
  ∧ undo_last (handle_point_button "t2".toList st1 .rth true .bull
        "above EMA".toList none).1 = (st1, true)
  ∧ undo_last (clear_current_bar "t3".toList st1 .rth) = (st1, true)
  ∧ undo_last (clear_cell "t4".toList st1 .rth .bull).1 = (st1, true) := by
  refine ⟨?_, ?_, ?_, ?_⟩
  · exact claim_C1_undo_restores_previous_state.1 "t1".toList stInit _ .rth .bull
      "above EMA".toList none (freshRecord "t0".toList) (by decide) (by decide)
  · exact claim_C1_undo_restores_previous_state.2.1 "t2".toList st1 _ .rth .bull
      "above EMA".toList none rec1 (by decide) (by decide)
  · exact claim_C1_undo_restores_previous_state.2.2.1 "t3".toList st1 .rth rec1
      (by decide)
  · exact claim_C1_undo_restores_previous_state.2.2.2 "t4".toList st1 _ .rth .bull
      rec1 (by decide) (by decide)

/-- C4: if the final text already occurs verbatim in the targeted
(bar, category) list, the add is rejected with the bell signal and is a
complete no-op — data (hence the bar's record) and the undo history are
unchanged.  First part: plain labels; second part: templated labels, where
the final text is the label with the user suffix spliced in (the rejection
then comes from the template-base guard or from the duplicate check, in
both cases a bell and no mutation). -/
theorem claim_C4_duplicate_add_is_noop :
    (∀ now st bar kind text uin rec, lookupBar st.data bar = some rec →
        is_templated_label text = false → text ∈ rec.get kind →
        handle_point_button now st bar false kind text uin = (st, .bell))
  ∧ (∀ now st bar kind text u0 rec, lookupBar st.data bar = some rec →
        is_templated_label text = true → stripStr u0 ≠ [] →
        format_templated_entry text (stripStr u0) ∈ rec.get kind →
        handle_point_button now st bar false kind text (some u0) = (st, .bell)) := by
  constructor
  · intro now st bar kind text uin rec hbar ht hmem
    have hd := ensure_present now hbar
    simp only [handle_point_button, hd, hbar, Option.getD_some, ht,
      Bool.false_eq_true, if_false, if_pos hmem]
  · intro now st bar kind text u0 rec hbar ht hu hmem
    have hd := ensure_present now hbar
    simp only [handle_point_button, hd, hbar, Option.getD_some, ht, if_true,
      Bool.false_eq_true, if_false]
    by_cases hex : any_templated_for_base_exists (rec.get kind) (button_base text)
    · simp [hex]
    · simp only [hex, Bool.false_eq_true, if_false]
      rw [if_neg hu, if_pos hmem]

/-- Witness for C4: re-adding "above EMA" to st1 and re-adding "DB()"
with a fresh suffix over st2 both bell and leave the state unchanged. -/
theorem claim_C4_witness :
    handle_point_button "t9".toList st1 .rth false .bull "above EMA".toList none
      = (st1, .bell)
  ∧ handle_point_button "t9".toList st2 .rth false .bull "DB()".toList
      (some "x".toList) = (st2, .bell) := by
  constructor
  · exact claim_C4_duplicate_add_is_noop.1 "t9".toList st1 .rth .bull
      "above EMA".toList none rec1 (by decide) (by decide) (by decide)
  · exact claim_C4_duplicate_add_is_noop.2 "t9".toList st2 .rth .bull
      "DB()".toList "x".toList rec2 (by decide) (by decide) (by decide) (by decide)

/-- C5: while some entry of the targeted category list matches the new
templated label's base followed by a single parenthesized suffix, a second
add of a templated label with that base is rejected with the bell and no
mutation of data or history, whatever the dialog input would have been. -/
theorem claim_C5_existing_base_blocks_templated_add :
    ∀ now st bar kind text uin rec e, lookupBar st.data bar = some rec →
      is_templated_label text = true → e ∈ rec.get kind →
      matchesTemplate (button_base text) e = true →
      handle_point_button now st bar false kind text uin = (st, .bell) := by
  intro now st bar kind text uin rec e hbar ht he hm
  have hd := ensure_present now hbar
  have hex : any_templated_for_base_exists (rec.get kind) (button_base text) = true := by
    obtain ⟨i, t, hf⟩ := flm_isSome_of_mem he hm
    simp [any_templated_for_base_exists, hf]
  simp only [handle_point_button, hd, hbar, Option.getD_some, ht, if_true,
    Bool.false_eq_true, if_false, hex]

/-- Witness for C5: with "DB(x)" stored, adding "DB()" again (any suffix)
bells and changes nothing. -/
theorem claim_C5_witness :
    handle_point_button "t9".toList st2 .rth false .bull "DB()".toList
      (some "zz".toList) = (st2, .bell) :=
  claim_C5_existing_base_blocks_templated_add "t9".toList st2 .rth .bull
    "DB()".toList (some "zz".toList) rec2 "DB(x)".toList
    (by decide) (by decide) (by decide) (by decide)

/-- C7: when undo pops an add-entry record, it removes the recorded text
exactly when that text is still the last element of the category list;
otherwise the list (indeed all of data) is left unchanged, and the pop
still succeeds without error. -/
theorem claim_C7_undo_add_pops_only_matching_tail :
    (∀ st h0 bar kind text rec, st.history = h0 ++ [.add bar kind text] →
        lookupBar st.data bar = some rec →
        (rec.get kind).getLast? = some text →
        undo_last st =
          (⟨setBar st.data bar (rec.set kind (rec.get kind).dropLast), h0⟩, true))
  ∧ (∀ st h0 bar kind text rec, st.history = h0 ++ [.add bar kind text] →
        lookupBar st.data bar = some rec →
        ¬ (rec.get kind).getLast? = some text →
        undo_last st = (⟨st.data, h0⟩, true)) := by
  constructor
  · intro st h0 bar kind text rec hh hbar hlast
    simp only [undo_last, hh, getLast?_snoc, dropLast_snoc, hbar, hlast, if_true]
  · intro st h0 bar kind text rec hh hbar hlast
    simp only [undo_last, hh, getLast?_snoc, dropLast_snoc, hbar, if_neg hlast]

/-- A state whose last history record is an add whose text is no longer
the tail of the list (the list was mutated out of order since). -/
def stMis : State :=
  ⟨setBar stInit.data .rth ⟨"t0".toList, ["x".toList], [], [], []⟩,
   [.add .rth .bull "y".toList]⟩

/-- Witness for C7: undo after the add in st1 pops the entry; undo on the
out-of-sync stMis leaves the data untouched and still pops the record. -/
theorem claim_C7_witness :
    undo_last st1 =
      (⟨setBar st1.data .rth (rec1.set .bull rec1.bull.dropLast), []⟩, true)
  ∧ undo_last stMis = (⟨stMis.data, []⟩, true) := by
  constructor
  · exact claim_C7_undo_add_pops_only_matching_tail.1 st1 [] .rth .bull
      "above EMA".toList rec1 (by decide) (by decide) (by decide)
  · exact claim_C7_undo_add_pops_only_matching_tail.2 stMis [] .rth .bull
      "y".toList ⟨"t0".toList, ["x".toList], [], [], []⟩
      (by decide) (by decide) (by decide)

/-- C10: clearing the current bar is never a no-op when the bar is present
(the program keeps every bar present): even on an all-empty record it
pushes a clear_bar history entry and installs a fresh record carrying the
new timestamp; whereas the Delete-key clear of a single category skips an
empty list entirely — no history entry, no data change, bell reported
through changed_any = false. -/
theorem claim_C10_clear_bar_never_noop_clear_cell_skips_empty :
    (∀ now st bar prev, lookupBar st.data bar = some prev →
        clear_current_bar now st bar =
          ⟨setBar st.data bar (freshRecord now),
           st.history ++ [.clear_bar bar prev]⟩)
  ∧ (∀ now st bar kind rec, lookupBar st.data bar = some rec →
        rec.get kind = [] →
        clear_cell now st bar kind = (st, false)) := by
  constructor
  · intro now st bar prev hbar
    simp [clear_current_bar, hbar]
  · intro now st bar kind rec hbar hempty
    have hd := ensure_present now hbar
    simp only [clear_cell, hd, hbar, Option.getD_some, hempty, if_pos]

/-- Witness for C10: clearing the (already empty) RTH record of a fresh
session still pushes a clear_bar entry and renews the timestamp, while the
Delete-key clear of its empty bull list does nothing. -/
theorem claim_C10_witness :
    clear_current_bar "t5".toList stInit .rth =
      ⟨setBar stInit.data .rth (freshRecord "t5".toList),
       [.clear_bar .rth (freshRecord "t0".toList)]⟩
  ∧ clear_cell "t5".toList stInit .rth .bull = (stInit, false) := by
  constructor
  · exact claim_C10_clear_bar_never_noop_clear_cell_skips_empty.1 "t5".toList
      stInit .rth (freshRecord "t0".toList) (by decide)
  · exact claim_C10_clear_bar_never_noop_clear_cell_skips_empty.2 "t5".toList
      stInit .rth .bull (freshRecord "t0".toList) (by decide) (by decide)

/-- C6: erase semantics.  Template-based removal removes the entry at the
highest (most recently inserted) index whose text matches the base
followed by any single parenthesized suffix — not an exact string match —
and records that entry's text and index in the history; plain removal
requires an exact match (the first occurrence, recorded with its index);
and in either mode, when nothing matches the operation bells and leaves
data and history unchanged. -/
theorem claim_C6_removal_semantics :
    (∀ now st bar kind text uin rec, lookupBar st.data bar = some rec →
        is_templated_label text = true →
        (∃ e ∈ rec.get kind, matchesTemplate (button_base text) e = true) →
        ∃ i t, (rec.get kind).get? i = some t ∧
          matchesTemplate (button_base text) t = true ∧
          (∀ j u, i < j → (rec.get kind).get? j = some u →
            matchesTemplate (button_base text) u = false) ∧
          handle_point_button now st bar true kind text uin =
            (⟨setBar st.data bar (rec.set kind (eraseAt (rec.get kind) i)),
              st.history ++ [.remove bar kind t i]⟩, .ok))
  ∧ (∀ now st bar kind text uin rec, lookupBar st.data bar = some rec →
        is_templated_label text = true →
        (∀ e ∈ rec.get kind, matchesTemplate (button_base text) e = false) →
        handle_point_button now st bar true kind text uin = (st, .bell))
  ∧ (∀ now st bar kind text uin rec, lookupBar st.data bar = some rec →
        is_templated_label text = false → text ∈ rec.get kind →
        ∃ i, (rec.get kind).get? i = some text ∧
          handle_point_button now st bar true kind text uin =
            (⟨setBar st.data bar (rec.set kind (eraseAt (rec.get kind) i)),
              st.history ++ [.remove bar kind text i]⟩, .ok))
  ∧ (∀ now st bar kind text uin rec, lookupBar st.data bar = some rec →
        is_templated_label text = false → text ∉ rec.get kind →
        handle_point_button now st bar true kind text uin = (st, .bell)) := by
  refine ⟨?_, ?_, ?_, ?_⟩
  · intro now st bar kind text uin rec hbar ht hex
    obtain ⟨e, he, hm⟩ := hex
    obtain ⟨i, t, hf⟩ := flm_isSome_of_mem he hm
    obtain ⟨hget, hmt, hlatest⟩ := flm_some hf
    have hd := ensure_present now hbar
    refine ⟨i, t, hget, hmt, hlatest, ?_⟩
    simp only [handle_point_button, hd, hbar, Option.getD_some, if_true, ht, hf]
  · intro now st bar kind text uin rec hbar ht hnone
    have hd := ensure_present now hbar
    have hf : find_latest_templated_match (rec.get kind) (button_base text) = none :=
      flm_none_iff.mpr hnone
    simp only [handle_point_button, hd, hbar, Option.getD_some, if_true, ht, hf]
  · intro now st bar kind text uin rec hbar ht hmem
    obtain ⟨i, hf⟩ := mem_idxOf hmem
    have hd := ensure_present now hbar
    refine ⟨i, idxOf_get? hf, ?_⟩
    simp only [handle_point_button, hd, hbar, Option.getD_some, if_true, ht,
      Bool.false_eq_true, if_false, hf]
  · intro now st bar kind text uin rec hbar ht hmem
    have hd := ensure_present now hbar
    have hf : idxOf text (rec.get kind) = none := idxOf_none_iff.mpr hmem
    simp only [handle_point_button, hd, hbar, Option.getD_some, if_true, ht,
      Bool.false_eq_true, if_false, hf]

/-- Witness for C6: erasing "DB()" from st2 removes "DB(x)" by template
match; erasing "above EMA" from st1 removes it by exact match; both
not-found cases bell on the fresh session. -/
theorem claim_C6_witness :
    (∃ i t, (rec2.get .bull).get? i = some t ∧
        matchesTemplate (button_base "DB()".toList) t = true ∧
        (∀ j u, i < j → (rec2.get .bull).get? j = some u →
          matchesTemplate (button_base "DB()".toList) u = false) ∧
        handle_point_button "t9".toList st2 .rth true .bull "DB()".toList none =
          (⟨setBar st2.data .rth (rec2.set .bull (eraseAt (rec2.get .bull) i)),
            st2.history ++ [.remove .rth .bull t i]⟩, .ok))
  ∧ handle_point_button "t9".toList stInit .rth true .bull "DB()".toList none
      = (stInit, .bell)
  ∧ (∃ i, (rec1.get .bull).get? i = some "above EMA".toList ∧
        handle_point_button "t9".toList st1 .rth true .bull "above EMA".toList none =
          (⟨setBar st1.data .rth (rec1.set .bull (eraseAt (rec1.get .bull) i)),
            st1.history ++ [.remove .rth .bull "above EMA".toList i]⟩, .ok))
  ∧ handle_point_button "t9".toList stInit .rth true .bull "above EMA".toList none
      = (stInit, .bell) := by
  refine ⟨?_, ?_, ?_, ?_⟩
  · exact claim_C6_removal_semantics.1 "t9".toList st2 .rth .bull "DB()".toList
      none rec2 (by decide) (by decide) ⟨"DB(x)".toList, by decide, by decide⟩
  · exact claim_C6_removal_semantics.2.1 "t9".toList stInit .rth .bull
      "DB()".toList none (freshRecord "t0".toList) (by decide) (by decide)
      (by decide)
  · exact claim_C6_removal_semantics.2.2.1 "t9".toList st1 .rth .bull
      "above EMA".toList none rec1 (by decide) (by decide) (by decide)
  · exact claim_C6_removal_semantics.2.2.2 "t9".toList stInit .rth .bull
      "above EMA".toList none (freshRecord "t0".toList) (by decide) (by decide)
      (by decide)

/-! ### Distinctness (C2) -/

/-- All four lists of a record are duplicate-free. -/
def recordNodup (r : BarRecord) : Prop :=
  r.bull.Nodup ∧ r.bear.Nodup ∧ r.tr.Nodup ∧ r.bias.Nodup

/-- Every record stored in the session data has duplicate-free lists. -/
def NodupData (d : SessionData) : Prop := ∀ p ∈ d, recordNodup p.2

instance (r : BarRecord) : Decidable (recordNodup r) := by
  unfold recordNodup
  infer_instance

instance (d : SessionData) : Decidable (NodupData d) := by
  unfold NodupData
  infer_instance

theorem recordNodup_get {r : BarRecord} (h : recordNodup r) (k : Kind) :
    (r.get k).Nodup := by
  cases k
  · exact h.1
  · exact h.2.1
  · exact h.2.2.1
  · exact h.2.2.2

theorem recordNodup_set {r : BarRecord} {l : List Str} (h : recordNodup r)
    (hl : l.Nodup) (k : Kind) : recordNodup (r.set k l) := by
  cases k <;> exact ⟨by simp_all [BarRecord.set, recordNodup], by simp_all
    [BarRecord.set, recordNodup], by simp_all [BarRecord.set, recordNodup],
    by simp_all [BarRecord.set, recordNodup]⟩

theorem freshRecord_nodup (now : Str) : recordNodup (freshRecord now) := by
  simp [recordNodup, freshRecord]

theorem NodupData_lookup {d : SessionData} {b : BarKey} {r : BarRecord}
    (hd : NodupData d) (h : lookupBar d b = some r) : recordNodup r :=
  hd (b, r) (lookupBar_mem h)

theorem mem_setBar {d : SessionData} {b : BarKey} {v : BarRecord}
    {p : BarKey × BarRecord} (hp : p ∈ setBar d b v) : p = (b, v) ∨ p ∈ d := by
  induction d with
  | nil =>
    simp only [setBar, List.mem_singleton] at hp
    exact Or.inl hp
  | cons q rest ih =>
    obtain ⟨k, w⟩ := q
    by_cases hk : k = b
    · subst hk
      rw [setBar, if_pos rfl] at hp
      rcases List.mem_cons.mp hp with h | h
      · exact Or.inl h
      · exact Or.inr (List.mem_cons_of_mem _ h)
    · rw [setBar, if_neg hk] at hp
      rcases List.mem_cons.mp hp with h | h
      · exact Or.inr (h ▸ List.mem_cons_self _ _)
      · rcases ih h with h2 | h2
        · exact Or.inl h2
        · exact Or.inr (List.mem_cons_of_mem _ h2)

theorem NodupData_setBar {d : SessionData} {b : BarKey} {v : BarRecord}
    (hd : NodupData d) (hv : recordNodup v) : NodupData (setBar d b v) := by
  intro p hp
  rcases mem_setBar hp with rfl | hp
  · exact hv
  · exact hd p hp

theorem NodupData_ensure {now : Str} {d : SessionData} {bar : BarKey}
    (hd : NodupData d) : NodupData (ensure_bar_exists now d bar) := by
  cases h : lookupBar d bar with
  | some r =>
    rw [ensure_present now h]
    exact hd
  | none =>
    simp only [ensure_bar_exists, h]
    exact NodupData_setBar hd (freshRecord_nodup now)

theorem rcd_nodup (now : Str) {d : SessionData} (bar : BarKey)
    (hd : NodupData d) :
    recordNodup ((lookupBar (ensure_bar_exists now d bar) bar).getD
      (freshRecord now)) := by
  cases h : lookupBar d bar with
  | some r =>
    rw [ensure_present now h, h, Option.getD_some]
    exact NodupData_lookup hd h
  | none =>
    simp only [ensure_bar_exists, h, lookupBar_setBar_same, Option.getD_some]
    exact freshRecord_nodup now

theorem eraseAt_nodup {α : Type} {l : List α} (i : Nat) (h : l.Nodup) :
    (eraseAt l i).Nodup :=
  List.Nodup.sublist (eraseAt_sublist l i) h

/-- What the program guarantees of the record undo is about to pop: a
remove record's text is no longer present in its list (a remove deleted
the sole occurrence of the text, and any later mutation sits above it on
the stack), and snapshot payloads were taken from duplicate-free data. -/
def lastEventCoherent (st : State) : Prop :=
  match st.history.getLast? with
  | some (.remove b k t _) => ∀ r, lookupBar st.data b = some r → t ∉ r.get k
  | some (.clear_bar _ prev) => recordNodup prev
  | some (.clear_cell _ _ prevList) => prevList.Nodup
  | _ => True

/-- C2, amended: the direct mutations — add, remove (plain and templated),
clear bar, clear one category — preserve the duplicate-freedom of every
category list of every bar, and so does undo whenever the record it pops
is coherent with the state (as it is on every trace the program produces);
CSV import and autosave restore, by contrast, copy incoming lists
verbatim (import merely drops blank lines) and can introduce duplicates
(see the counterexample). -/
theorem claim_C2_mutations_preserve_distinctness :
    (∀ now st bar shiftHeld kind text uin, NodupData st.data →
        NodupData (handle_point_button now st bar shiftHeld kind text uin).1.data)
  ∧ (∀ now st bar, NodupData st.data →
        NodupData (clear_current_bar now st bar).data)
  ∧ (∀ now st bar kind, NodupData st.data →
        NodupData (clear_cell now st bar kind).1.data)
  ∧ (∀ st, NodupData st.data → lastEventCoherent st →
        NodupData (undo_last st).1.data) := by
  refine ⟨?_, ?_, ?_, ?_⟩
  · intro now st bar shiftHeld kind text uin hd
    have hde : NodupData (ensure_bar_exists now st.data bar) := NodupData_ensure hd
    have hrn := rcd_nodup now bar hd
    have hbn := recordNodup_get hrn kind
    simp only [handle_point_button]
    split
    · split
      · split
        · exact hde
        · exact NodupData_setBar hde (recordNodup_set hrn (eraseAt_nodup _ hbn) kind)
      · split
        · exact NodupData_setBar hde (recordNodup_set hrn (eraseAt_nodup _ hbn) kind)
        · exact hde
    · split
      · split
        · exact hde
        · split
          · exact hde
          · split
            · exact hde
            · split
              · exact hde
              · next hmem =>
                exact NodupData_setBar hde
                  (recordNodup_set hrn (nodup_snoc hbn hmem) kind)
      · split
        · exact hde
        · next hmem =>
          exact NodupData_setBar hde
            (recordNodup_set hrn (nodup_snoc hbn hmem) kind)
  · intro now st bar hd
    cases hb : lookupBar st.data bar with
    | none => simp only [clear_current_bar, hb]; exact hd
    | some prev =>
      simp only [clear_current_bar, hb]
      exact NodupData_setBar hd (freshRecord_nodup now)
  · intro now st bar kind hd
    have hde : NodupData (ensure_bar_exists now st.data bar) := NodupData_ensure hd
    have hrn := rcd_nodup now bar hd
    simp only [clear_cell]
    split
    · exact hde
    · exact NodupData_setBar hde (recordNodup_set hrn List.nodup_nil kind)
  · intro st hd hcoh
    cases hl : st.history.getLast? with
    | none =>
      simp only [undo_last, hl]
      exact hd
    | some ev =>
      simp only [lastEventCoherent, hl] at hcoh
      cases ev with
      | add bar kind text =>
        simp only [undo_last, hl]
        split
        · exact hd
        · next rcd hb =>
          have hr := NodupData_lookup hd hb
          split
          · exact NodupData_setBar hd (recordNodup_set hr
              (List.Nodup.sublist (List.dropLast_sublist _)
                (recordNodup_get hr kind)) kind)
          · exact hd
      | remove bar kind text idx =>
        simp only [undo_last, hl]
        split
        · exact hd
        · next rcd hb =>
          have hr := NodupData_lookup hd hb
          exact NodupData_setBar hd (recordNodup_set hr
            (nodup_insertAt _ (recordNodup_get hr kind) (hcoh rcd hb)) kind)
      | clear_bar bar prev =>
        simp only [undo_last, hl]
        exact NodupData_setBar hd hcoh
      | clear_cell bar kind prevList =>
        simp only [undo_last, hl]
        split
        · exact hd
        · next rcd hb =>
          exact NodupData_setBar hd
            (recordNodup_set (NodupData_lookup hd hb) hcoh kind)

/-- The autosave file view used by the counterexample: RTH carries a
duplicated bull list. -/
def dupLoaded : BarKey → Option LoadedRec :=
  fun k =>
    if k = .rth then some ⟨none, some ["a".toList, "a".toList], none, none, none⟩
    else none

/-- C2 as stated is false for CSV import and autosave restore: importing a
file whose bull cell is "a\na", or restoring a JSON record with a
duplicated list, writes a category list with two equal strings into an
otherwise duplicate-free session. -/
theorem claim_C2_counterexample :
    NodupData stInit.data
  ∧ ¬ NodupData (load_csv "t1".toList stInit
      [COLUMNS, ["RTH".toList, "a\na".toList, [], [], []]]).data
  ∧ ¬ NodupData (load_session_json dupLoaded stInit.data) := by
  refine ⟨by decide, by decide, by decide⟩

/-- Witness for C2 at concrete states. -/
theorem claim_C2_witness :
    NodupData (handle_point_button "t1".toList stInit .rth false .bull
      "above EMA".toList none).1.data
  ∧ NodupData (clear_current_bar "t5".toList st1 .rth).data
  ∧ NodupData (clear_cell "t5".toList st1 .rth .bull).1.data
  ∧ NodupData (undo_last st1).1.data := by
  have hcoh : lastEventCoherent st1 := by
    have h : st1.history.getLast? = some (.add .rth .bull "above EMA".toList) := by
      decide
    simp only [lastEventCoherent, h]
  exact ⟨claim_C2_mutations_preserve_distinctness.1 "t1".toList stInit .rth false
      .bull "above EMA".toList none (by decide),
    claim_C2_mutations_preserve_distinctness.2.1 "t5".toList st1 .rth (by decide),
    claim_C2_mutations_preserve_distinctness.2.2.1 "t5".toList st1 .rth .bull
      (by decide),
    claim_C2_mutations_preserve_distinctness.2.2.2 st1 (by decide) hcoh⟩

/-! ### CSV import frame lemmas (C8) -/

theorem import_row_history (now : Str) (st : State) (row : List Str) :
    (import_row now st row).history = st.history := by
  rw [import_row]
  split <;> rfl

theorem ensure_lookup_other {now : Str} {d : SessionData} {k b : BarKey}
    (h : b ≠ k) : lookupBar (ensure_bar_exists now d k) b = lookupBar d b := by
  cases hk : lookupBar d k with
  | some r => rw [ensure_present now hk]
  | none =>
    simp only [ensure_bar_exists, hk]
    exact lookupBar_setBar_other d _ h

theorem import_row_lookup_other {now : Str} {st : State} {row : List Str}
    {b : BarKey} (h : row ≠ [] → rowBarKey row ≠ b) :
    lookupBar (import_row now st row).data b = lookupBar st.data b := by
  by_cases hrow : row = []
  · rw [import_row, if_pos hrow]
  · have hb : b ≠ rowBarKey row := Ne.symm (h hrow)
    simp only [import_row, if_neg hrow]
    rw [lookupBar_setBar_other _ _ hb, ensure_lookup_other hb]

theorem fold_import_frame {now : Str} {rows : List (List Str)} {st : State}
    {b : BarKey} (h : ∀ row ∈ rows, row ≠ [] → rowBarKey row ≠ b) :
    lookupBar ((rows.foldl (import_row now) st).data) b = lookupBar st.data b := by
  induction rows generalizing st with
  | nil => rfl
  | cons r rs ih =>
    rw [List.foldl_cons, ih (fun row hr => h row (List.mem_cons_of_mem _ hr)),
      import_row_lookup_other (h r (List.mem_cons_self _ _))]

theorem import_row_ts (now : Str) {st : State} (row : List Str) {b : BarKey}
    {r : BarRecord} (h : lookupBar st.data b = some r) :
    ∃ r2, lookupBar (import_row now st row).data b = some r2 ∧ r2.ts = r.ts := by
  by_cases hrow : row = []
  · rw [import_row, if_pos hrow]
    exact ⟨r, h, rfl⟩
  · simp only [import_row, if_neg hrow]
    by_cases hb : rowBarKey row = b
    · subst hb
      rw [ensure_present now h, h, Option.getD_some, lookupBar_setBar_same]
      exact ⟨_, rfl, rfl⟩
    · have hb' : b ≠ rowBarKey row := Ne.symm hb
      rw [lookupBar_setBar_other _ _ hb', ensure_lookup_other hb']
      exact ⟨r, h, rfl⟩

theorem fold_import_ts {now : Str} {rows : List (List Str)} {st : State}
    {b : BarKey} {r : BarRecord} (h : lookupBar st.data b = some r) :
    ∃ r2, lookupBar ((rows.foldl (import_row now) st).data) b = some r2 ∧
      r2.ts = r.ts := by
  induction rows generalizing st r with
  | nil => exact ⟨r, h, rfl⟩
  | cons q rs ih =>
    obtain ⟨r1, h1, hts1⟩ := import_row_ts now q h
    obtain ⟨r2, h2, hts2⟩ := ih h1
    exact ⟨r2, h2, hts2.trans hts1⟩

/-- C8: a CSV import touches only the bars named by the file's data rows
(every other bar's record is exactly what it was); for every bar whose
record existed before the import, the record after the import carries the
same timestamp; and after the import the undo history is empty. -/
theorem claim_C8_import_frame_ts_history :
    (∀ now st rows, (load_csv now st rows).history = [])
  ∧ (∀ now st rows b, b ∉ namedBars rows.tail →
        lookupBar (load_csv now st rows).data b = lookupBar st.data b)
  ∧ (∀ now st rows b r, lookupBar st.data b = some r →
        ∃ r2, lookupBar (load_csv now st rows).data b = some r2 ∧
          r2.ts = r.ts) := by
  refine ⟨?_, ?_, ?_⟩
  · intro now st rows
    rfl
  · intro now st rows b hb
    show lookupBar ((rows.tail.foldl (import_row now) st).data) b = _
    apply fold_import_frame
    intro row hr hne hkey
    refine hb ?_
    rw [namedBars]
    exact List.mem_map.mpr
      ⟨row, List.mem_filter.mpr ⟨hr, by simp [List.isEmpty_iff, hne]⟩, hkey⟩
  · intro now st rows b r h
    exact fold_import_ts h

/-- Witness for C8: importing a one-row file naming bar 5 leaves RTH's
record untouched and preserves ETH's timestamp, and empties the history. -/
theorem claim_C8_witness :
    (load_csv "t1".toList stInit
      [COLUMNS, ["5".toList, "a".toList, [], [], []]]).history = []
  ∧ lookupBar (load_csv "t1".toList stInit
      [COLUMNS, ["5".toList, "a".toList, [], [], []]]).data .rth
      = lookupBar stInit.data .rth
  ∧ (∃ r2, lookupBar (load_csv "t1".toList stInit
      [COLUMNS, ["5".toList, "a".toList, [], [], []]]).data .eth = some r2 ∧
      r2.ts = (freshRecord "t0".toList).ts) :=
  ⟨claim_C8_import_frame_ts_history.1 _ _ _,
   claim_C8_import_frame_ts_history.2.1 _ _ _ .rth (by decide),
   claim_C8_import_frame_ts_history.2.2 _ _ _ .eth (freshRecord "t0".toList)
     (by decide)⟩

/-- C9: bar-key parsing on CSV import is total.  The strings "RTH" and
"ETH" (case-insensitive, whitespace-trimmed) map to themselves; any
integer-valued input n maps to the clamp of n into [1, 81]; every other
input maps to the first sentinel key RTH; and hence every parsed key is a
member of the fixed 83-key order. -/
theorem claim_C9_parse_bar_key_total :
    ∀ s : Str,
      parse_bar_key s ∈ BAR_ORDER
      ∧ (upperStr (stripStr s) = "RTH".toList → parse_bar_key s = .rth)
      ∧ (upperStr (stripStr s) = "ETH".toList → parse_bar_key s = .eth)
      ∧ (∀ n, pyInt (upperStr (stripStr s)) = some n →
            parse_bar_key s = .num (clampBar n) ∧ 1 ≤ clampBar n ∧
              clampBar n ≤ 81)
      ∧ (upperStr (stripStr s) ≠ "RTH".toList →
            upperStr (stripStr s) ≠ "ETH".toList →
            pyInt (upperStr (stripStr s)) = none → parse_bar_key s = .rth) := by
  intro s
  have hR : pyInt "RTH".toList = none := by decide
  have hE : pyInt "ETH".toList = none := by decide
  have hpk : parse_bar_key s =
      (if upperStr (stripStr s) = "RTH".toList then .rth
       else if upperStr (stripStr s) = "ETH".toList then .eth
       else
         match pyInt (upperStr (stripStr s)) with
         | some n => .num (clampBar n)
         | none => .rth) := rfl
  refine ⟨?_, ?_, ?_, ?_, ?_⟩
  · by_cases h1 : upperStr (stripStr s) = "RTH".toList
    · rw [hpk, if_pos h1]
      decide
    · by_cases h2 : upperStr (stripStr s) = "ETH".toList
      · rw [hpk, if_neg h1, if_pos h2]
        decide
      · cases hn : pyInt (upperStr (stripStr s)) with
        | some n =>
          have hb := clampBar_bounds n
          rw [hpk, if_neg h1, if_neg h2, hn]
          exact mem_BAR_ORDER_num hb.1 hb.2
        | none =>
          rw [hpk, if_neg h1, if_neg h2, hn]
          decide
  · intro h1
    rw [hpk, if_pos h1]
  · intro h2
    by_cases h1 : upperStr (stripStr s) = "RTH".toList
    · rw [h1] at h2
      exact absurd h2 (by decide)
    · rw [hpk, if_neg h1, if_pos h2]
  · intro n hn
    have h1 : upperStr (stripStr s) ≠ "RTH".toList := by
      intro h
      rw [h, hR] at hn
      cases hn
    have h2 : upperStr (stripStr s) ≠ "ETH".toList := by
      intro h
      rw [h, hE] at hn
      cases hn
    have hb := clampBar_bounds n
    exact ⟨by rw [hpk, if_neg h1, if_neg h2, hn], hb.1, hb.2⟩
  · intro h1 h2 hn
    rw [hpk, if_neg h1, if_neg h2, hn]

/-- Witness for C9 on concrete inputs: " rth " is RTH, "99" clamps to 81
and lands in BAR_ORDER, "xy" defaults to RTH. -/
theorem claim_C9_witness :
    parse_bar_key " rth ".toList = .rth
  ∧ parse_bar_key "99".toList ∈ BAR_ORDER
  ∧ (parse_bar_key "99".toList = .num (clampBar 99) ∧ 1 ≤ clampBar 99 ∧
      clampBar 99 ≤ 81)
  ∧ parse_bar_key "xy".toList = .rth :=
  ⟨(claim_C9_parse_bar_key_total " rth ".toList).2.1 (by decide),
   (claim_C9_parse_bar_key_total "99".toList).1,
   (claim_C9_parse_bar_key_total "99".toList).2.2.2.1 99 (by decide),
   (claim_C9_parse_bar_key_total "xy".toList).2.2.2.2 (by decide) (by decide)
     (by decide)⟩

/-! ### CSV round-trip (C3) -/

/-- All four lists of a record round-trip through a CSV cell. -/
def goodRecord (r : BarRecord) : Prop :=
  goodList r.bull ∧ goodList r.bear ∧ goodList r.tr ∧ goodList r.bias

instance (l : List Str) : Decidable (goodList l) := by
  unfold goodList
  infer_instance

instance (r : BarRecord) : Decidable (goodRecord r) := by
  unfold goodRecord
  infer_instance

/-- The bar is present and its record round-trips. -/
def recordOk : Option BarRecord → Prop
  | some r => goodRecord r
  | none => False

instance (o : Option BarRecord) : Decidable (recordOk o) :=
  match o with
  | some r => (inferInstance : Decidable (goodRecord r))
  | none => (inferInstance : Decidable False)

theorem mapOption_eq_map {α β : Type} {f : α → Option β} {g : α → β} :
    ∀ l : List α, (∀ b ∈ l, f b = some (g b)) → mapOption f l = some (l.map g)
  | [], _ => rfl
  | a :: as, h => by
    have ha : f a = some (g a) := h a (List.mem_cons_self _ _)
    have has := mapOption_eq_map as
      (fun x hx => h x (List.mem_cons_of_mem _ hx))
    simp only [mapOption, ha, has, List.map_cons]

theorem row_of_ne_nil (bar : BarKey) (r : BarRecord) : row_of bar r ≠ [] := by
  simp [row_of]

theorem rowBarKey_row_of {bar : BarKey} (hb : bar ∈ BAR_ORDER) (r : BarRecord) :
    rowBarKey (row_of bar r) = bar := by
  show parse_bar_key (stripStr (barKeyStr bar)) = bar
  exact parse_roundtrip bar hb

theorem import_row_roundtrip {now : Str} {st : State} {bar : BarKey}
    {r : BarRecord} (hb : bar ∈ BAR_ORDER) (hr : lookupBar st.data bar = some r)
    (hg : goodRecord r) : import_row now st (row_of bar r) = st := by
  have hkey := rowBarKey_row_of hb r
  simp only [import_row, if_neg (row_of_ne_nil bar r), hkey,
    ensure_present now hr, hr, Option.getD_some]
  have h1 : split_lines (row_of bar r) 1 = r.bull := by
    show split_lines_cell (joinNL r.bull) = r.bull
    exact split_lines_cell_joinNL hg.1
  have h2 : split_lines (row_of bar r) 2 = r.bear := by
    show split_lines_cell (joinNL r.bear) = r.bear
    exact split_lines_cell_joinNL hg.2.1
  have h3 : split_lines (row_of bar r) 3 = r.tr := by
    show split_lines_cell (joinNL r.tr) = r.tr
    exact split_lines_cell_joinNL hg.2.2.1
  have h4 : split_lines (row_of bar r) 4 = r.bias := by
    show split_lines_cell (joinNL r.bias) = r.bias
    exact split_lines_cell_joinNL hg.2.2.2
  rw [h1, h2, h3, h4]
  have hrec : (⟨r.ts, r.bull, r.bear, r.tr, r.bias⟩ : BarRecord) = r := rfl
  rw [hrec, setBar_lookup_self hr]

theorem fold_import_roundtrip {now : Str} {st : State} :
    ∀ {l : List BarKey}, (∀ b ∈ l, b ∈ BAR_ORDER) →
      (∀ b ∈ l, ∃ r, lookupBar st.data b = some r ∧ goodRecord r) →
      ((l.map (fun b => row_of b ((lookupBar st.data b).getD
        (freshRecord [])))).foldl (import_row now) st) = st := by
  intro l
  induction l with
  | nil =>
    intro _ _
    rfl
  | cons b bs ih =>
    intro hmem hgood
    obtain ⟨r, hr, hg⟩ := hgood b (List.mem_cons_self _ _)
    rw [List.map_cons, List.foldl_cons]
    rw [show (lookupBar st.data b).getD (freshRecord []) = r from by
      rw [hr, Option.getD_some]]
    rw [import_row_roundtrip (hmem b (List.mem_cons_self _ _)) hr hg]
    exact ih (fun x hx => hmem x (List.mem_cons_of_mem _ hx))
      (fun x hx => hgood x (List.mem_cons_of_mem _ hx))

/-- C3, amended: when every bar is present and every stored entry is free
of embedded newlines and not whitespace-only (entries the program's
preset buttons always satisfy; the custom-text dialog can violate them),
exporting the session to CSV and importing the produced file reproduces,
for every bar, the same four category lists (the comparison excludes
timestamps, which import leaves as they were). -/
theorem claim_C3_csv_roundtrip :
    ∀ now st rows,
      (∀ b ∈ BAR_ORDER, recordOk (lookupBar st.data b)) →
      save_csv st = some rows →
      ∀ b ∈ BAR_ORDER, ∃ r r2, lookupBar st.data b = some r ∧
        lookupBar (load_csv now st rows).data b = some r2 ∧
        ∀ k, r2.get k = r.get k := by
  intro now st rows hok hsave b hb
  have hgood : ∀ x ∈ BAR_ORDER, ∃ r, lookupBar st.data x = some r ∧ goodRecord r := by
    intro x hx
    have h := hok x hx
    cases hl : lookupBar st.data x with
    | none =>
      rw [hl] at h
      exact h.elim
    | some r =>
      rw [hl] at h
      exact ⟨r, rfl, h⟩
  obtain ⟨r, hr, hg⟩ := hgood b hb
  have hne : st.data ≠ [] := lookupBar_ne_nil hr
  rw [save_csv, if_neg hne] at hsave
  have hmap : mapOption (fun x => (lookupBar st.data x).map (row_of x)) BAR_ORDER
      = some (BAR_ORDER.map (fun x => row_of x ((lookupBar st.data x).getD
          (freshRecord [])))) := by
    apply mapOption_eq_map
    intro x hx
    obtain ⟨rx, hrx, _⟩ := hgood x hx
    rw [hrx]
    rfl
  rw [hmap, Option.map_some'] at hsave
  have hrows : COLUMNS :: BAR_ORDER.map (fun x => row_of x
      ((lookupBar st.data x).getD (freshRecord []))) = rows :=
    Option.some_inj.mp hsave
  refine ⟨r, r, hr, ?_, fun k => rfl⟩
  have hdata : (load_csv now st rows).data
      = (rows.tail.foldl (import_row now) st).data := rfl
  rw [hdata, ← hrows, List.tail_cons,
    fold_import_roundtrip (fun x hx => hx) hgood]
  exact hr

/-- Witness for C3: exporting st1 (one legitimate entry) and importing
the produced rows leaves RTH's category lists identical. -/
theorem claim_C3_witness :
    ∃ r r2, lookupBar st1.data .rth = some r ∧
      lookupBar (load_csv "t9".toList st1 ((save_csv st1).getD [])).data .rth
        = some r2 ∧
      ∀ k, r2.get k = r.get k :=
  claim_C3_csv_roundtrip "t9".toList st1 ((save_csv st1).getD [])
    (by decide) (by decide) .rth (by decide)

/-- A session reachable through the custom-text dialog (add_custom_point
strips the typed text, so whitespace input adds the empty string): the
empty string sits in RTH's bull list. -/
def stBlank : State :=
  (handle_point_button "t1".toList stInit .rth false .bull [] none).1

/-- C3 as stated (for every session state) is false: exporting stBlank
and importing the produced file drops the blank entry, so RTH's bull list
comes back as [] instead of [""]. -/
theorem claim_C3_counterexample :
    (lookupBar stBlank.data .rth).map BarRecord.bull = some [[]]
  ∧ ((save_csv stBlank).map
      (fun rows => (lookupBar (load_csv "t9".toList stBlank rows).data .rth).map
        BarRecord.bull)) = some (some []) := by
  exact ⟨by decide, by decide⟩

end TradeJournal
